import Mathlib

/-!
Verification of the PCRE-compatibility core (`src/php/preg.js`) of the
jlive repository.

The JavaScript source is shallowly embedded: every pure helper of the
module (`stripExtended`, `parsePattern`, the flag dedup, `preg_quote`,
the error-state cell, the per-call control flow of `preg_match`,
`preg_match_all`, `preg_replace`, `preg_split`) is translated into an
executable Lean definition.  The one part that is *not* code of the
repository is the native JavaScript `RegExp` engine; its observable
behaviour (does `new RegExp(source, flags)` throw, which matches does a
compiled regex produce on a subject) is passed in as an explicit oracle
argument, and concrete instances faithful to every JS engine (literal
patterns, where native matching is plain substring search) are supplied
for evaluation at concrete inputs.

JS strings are modelled as Lean `String`/`List Char` (code points); none
of the claims below depends on UTF-16 surrogate behaviour.  The
`assert*` argument-type guards of the source raise programmer-error
exceptions before any of the modelled logic runs and are outside the
model: all claims concern well-typed calls.
-/

namespace JPreg

/-! ### Constants (lines 19-31 of preg.js) -/

def PREG_PATTERN_ORDER : Nat := 1
def PREG_SET_ORDER : Nat := 2
def PREG_OFFSET_CAPTURE : Nat := 256
def PREG_UNMATCHED_AS_NULL : Nat := 512
def PREG_NO_ERROR : Nat := 0
def PREG_INTERNAL_ERROR : Nat := 1

/-! ### preg_quote (lines 186-192)

```js
const del = delimiter ? delimiter.replace(/[\\^$.*+?()[\]{}|]/g, "\\$&") : "";
return str.replace(/[\\^$.*+?()[\]{}|]/g, "\\$&").replace(new RegExp(del, "g"), "\\$&");
```

With the delimiter argument absent (`null`, the default) `del` is the
empty string, so the second `replace` runs with `new RegExp("", "g")`:
the empty pattern matches the empty string at every position
`0 .. str.length`, and the replacement template `"\\$&"` (a backslash
followed by the — empty — match) therefore inserts one backslash at
every boundary of the already-escaped string. -/

/-- The character class `[\\^$.*+?()[\]\x7b\x7d|]` of the source. -/
def metaChar (c : Char) : Bool :=
  c ∈ ['\\', '^', '$', '.', '*', '+', '?', '(', ')', '[', ']', '\x7b', '\x7d', '|']

/-- `str.replace(/[\\^$.*+?()[\]\x7b\x7d|]/g, "\\$&")`: each metacharacter is
replaced by a backslash followed by itself; all other characters pass through. -/
def escapeMeta (s : List Char) : List Char :=
  s.flatMap (fun c => if metaChar c then ['\\', c] else [c])

/-- `s.replace(new RegExp("", "g"), "\\$&")`: the empty pattern matches at
every position, so a backslash is inserted before every character and one
more at the end (in JS, `"abc".replace(new RegExp("", "g"), "\\$&")`
evaluates to `"\\a\\b\\c\\"`). -/
def emptyPatternGlobalReplace (s : List Char) : List Char :=
  '\\' :: s.flatMap (fun c => [c, '\\'])

/-- `preg_quote(str)` with the delimiter argument left at its default
`null` (so `del = ""` and the second replace runs with an empty pattern). -/
def preg_quote (str : String) : String :=
  ⟨emptyPatternGlobalReplace (escapeMeta str.toList)⟩

/-- C1: the claim says `quote(text)` escapes regex metacharacters and
otherwise leaves `text` unchanged, so that it matches exactly the literal
occurrences of `text`.  The code instead inserts a backslash at every
position of the input (the unconditional second `replace` with an empty
delimiter pattern): `preg_quote "a"` evaluates to `"\a\"`, not `"a"` —
and `"\a\"` is not even a compilable pattern body (it ends in a lone
backslash). -/
theorem preg_quote_backslash_bug :
    preg_quote "a" = "\\a\\" ∧ preg_quote "a" ≠ "a" ∧
    preg_quote "" = "\\" ∧ preg_quote "" ≠ "" := by
  refine ⟨rfl, ?_, rfl, ?_⟩ <;> decide

/-! ### stripExtended (lines 41-77)

The `x`-modifier preprocessor: a single index loop over the pattern with
two booleans `escaped` and `inClass`.  The `#` branch advances the index
with an inner `while` to the next newline; the outer loop's `i++` then
also skips that newline.  In list form the branch recurses on
`(rest.dropWhile (· != newline)).drop 1`. -/

/-- The character set matched by the JS regex `/\s/`: ECMAScript
WhiteSpace and LineTerminator code points. -/
def jsWhitespaceChars : List Char :=
  ['\t', '\n', '\x0b', '\x0c', '\r', ' ', ' ', ' ',
   ' ', ' ', ' ', ' ', ' ', ' ', ' ',
   ' ', ' ', ' ', ' ', ' ', ' ', ' ',
   ' ', '　', '﻿']

/-- `/\s/.test(ch)` of the source. -/
def jsWhitespace (c : Char) : Bool :=
  jsWhitespaceChars.contains c

theorem length_dropWhile_le (p : Char → Bool) (l : List Char) :
    (l.dropWhile p).length ≤ l.length := by
  induction l with
  | nil => simp [List.dropWhile]
  | cons c cs ih =>
    simp only [List.dropWhile]
    cases p c <;> simp <;> omega

/-- The loop body of `stripExtended`, source order of the branches
preserved (escaped / backslash / open class / close class / comment /
whitespace / copy). -/
def stripExtendedGo : List Char → Bool → Bool → List Char
  | [], _, _ => []
  | c :: cs, esc, inCls =>
    if esc = true then c :: stripExtendedGo cs false inCls
    else if c = '\\' then c :: stripExtendedGo cs true inCls
    else if c = '[' ∧ inCls = false then c :: stripExtendedGo cs false true
    else if c = ']' ∧ inCls = true then c :: stripExtendedGo cs false false
    else if inCls = false ∧ c = '#' then
      stripExtendedGo ((cs.dropWhile (fun d => d != '\n')).drop 1) false false
    else if inCls = false ∧ jsWhitespace c = true then stripExtendedGo cs false inCls
    else c :: stripExtendedGo cs false inCls
termination_by l _ _ => l.length
decreasing_by
  all_goals simp_wf
  all_goals try omega
  · have h1 := length_dropWhile_le (fun d => d != '\n') cs
    have h2 : ((cs.dropWhile (fun d => d != '\n')).drop 1).length ≤
        (cs.dropWhile (fun d => d != '\n')).length := by
      simp [List.length_drop]
    omega

/-- `stripExtended(pattern)` of the source (lines 41-77). -/
def stripExtended (pattern : String) : String :=
  ⟨stripExtendedGo pattern.toList false false⟩

/-! A second formulation, written from the words of the specification
(§4.2): a character-at-a-time state machine over the two booleans
`insideClass` and `escapedNext`, with an explicit comment mode for the
"`#` consumes through end-of-line" rule.  The claim is settled by proving
it equal to the source embedding on every input. -/

/-- Scanner state of the spec formulation: outside a class, inside a
class, escaped (remembering which of the two we were in), or consuming a
`#` comment. -/
inductive XScanState where
  | plain : XScanState
  | cls : XScanState
  | escPlain : XScanState
  | escCls : XScanState
  | comment : XScanState
deriving DecidableEq

/-- One step of the spec scanner: next state and emitted characters. -/
def xStep : XScanState → Char → XScanState × List Char
  | .escPlain, c => (.plain, [c])
  | .escCls, c => (.cls, [c])
  | .comment, c => if c = '\n' then (.plain, []) else (.comment, [])
  | .plain, c =>
    if c = '\\' then (.escPlain, [c])
    else if c = '[' then (.cls, [c])
    else if c = '#' then (.comment, [])
    else if jsWhitespace c then (.plain, [])
    else (.plain, [c])
  | .cls, c =>
    if c = '\\' then (.escCls, [c])
    else if c = ']' then (.plain, [c])
    else (.cls, [c])

/-- Run the spec scanner over the remaining characters. -/
def stripExtendedSpecGo : XScanState → List Char → List Char
  | _, [] => []
  | st, c :: cs =>
    let p := xStep st c
    p.2 ++ stripExtendedSpecGo p.1 cs

/-- Extended-mode preprocessing as the specification describes it. -/
def stripExtendedSpec (pattern : String) : String :=
  ⟨stripExtendedSpecGo .plain pattern.toList⟩

/-- The scanner state corresponding to the source booleans. -/
def stateOf : Bool → Bool → XScanState
  | true, true => .escCls
  | true, false => .escPlain
  | false, true => .cls
  | false, false => .plain

theorem specGo_comment (cs : List Char) :
    stripExtendedSpecGo .comment cs =
      stripExtendedSpecGo .plain ((cs.dropWhile (fun d => d != '\n')).drop 1) := by
  induction cs with
  | nil => simp [stripExtendedSpecGo, List.dropWhile]
  | cons c cs ih =>
    by_cases h : c = '\n'
    · subst h
      simp [stripExtendedSpecGo, xStep, List.dropWhile_cons]
    · simp [stripExtendedSpecGo, xStep, h, List.dropWhile_cons, bne_iff_ne, ih]

theorem stripExtendedGo_eq_spec :
    ∀ (n : Nat) (l : List Char), l.length ≤ n →
      ∀ esc inCls, stripExtendedGo l esc inCls = stripExtendedSpecGo (stateOf esc inCls) l := by
  intro n
  induction n with
  | zero =>
    intro l hl esc inCls
    have hnil : l = [] := List.eq_nil_of_length_eq_zero (Nat.le_zero.mp hl)
    subst hnil
    cases esc <;> cases inCls <;> simp [stripExtendedGo, stripExtendedSpecGo]
  | succ n ih =>
    intro l hl esc inCls
    match l with
    | [] => cases esc <;> cases inCls <;> simp [stripExtendedGo, stripExtendedSpecGo]
    | c :: cs =>
      have hcs : cs.length ≤ n := by
        simp only [List.length_cons] at hl
        omega
      have hdrop : ((cs.dropWhile (fun d => d != '\n')).tail).length ≤ n := by
        have h1 := length_dropWhile_le (fun d => d != '\n') cs
        simp only [List.length_tail]
        omega
      cases esc
      · by_cases h1 : c = '\\'
        · subst h1
          cases inCls <;>
            simp [stripExtendedGo, stripExtendedSpecGo, stateOf, xStep, ih cs hcs]
        · by_cases h2 : c = '['
          · subst h2
            cases inCls <;>
              simp +decide [stripExtendedGo, stripExtendedSpecGo, stateOf, xStep, ih cs hcs]
          · by_cases h3 : c = ']'
            · subst h3
              cases inCls <;>
                simp +decide [stripExtendedGo, stripExtendedSpecGo, stateOf, xStep, ih cs hcs]
            · by_cases h4 : c = '#'
              · subst h4
                cases inCls
                · simp +decide [stripExtendedGo, stripExtendedSpecGo, stateOf, xStep,
                    specGo_comment, ih _ hdrop, ih cs hcs]
                · simp +decide [stripExtendedGo, stripExtendedSpecGo, stateOf, xStep, ih cs hcs]
              · by_cases h5 : jsWhitespace c = true
                · cases inCls <;>
                    simp [stripExtendedGo, stripExtendedSpecGo, stateOf, xStep,
                      h1, h2, h3, h4, h5, ih cs hcs]
                · cases inCls <;>
                    simp [stripExtendedGo, stripExtendedSpecGo, stateOf, xStep,
                      h1, h2, h3, h4, h5, ih cs hcs]
      · cases inCls <;>
          simp [stripExtendedGo, stripExtendedSpecGo, stateOf, xStep, ih cs hcs]

/-- C7: the extended-mode preprocessor is the single left-to-right scan
the specification describes — escapes copied verbatim, character classes
tracked and their content untouched, comments and whitespace dropped only
outside classes — proved by showing the source loop equal, on every
input, to a state machine written from the words of §4.2; and the body
`"a b #comment\nc"` preprocesses to `"abc"`. -/
theorem stripExtended_matches_spec :
    (∀ s : String, stripExtended s = stripExtendedSpec s) ∧
    stripExtended "a b #comment\nc" = "abc" := by
  constructor
  · intro s
    have h := stripExtendedGo_eq_spec s.toList.length s.toList le_rfl false false
    simpa [stripExtended, stripExtendedSpec, stateOf] using congrArg String.mk h
  · show String.mk (stripExtendedGo ("a b #comment\nc").toList false false) = "abc"
    simp +decide [stripExtendedGo, jsWhitespace, jsWhitespaceChars]

/-! ### parsePattern (lines 79-110) -/

/-- The modifiers that map to native flags (`i`, `m`, `s`, `u`). -/
def nativeFlagMods : List Char := ['i', 'm', 's', 'u']

/-- `"AUDSJ".includes(m)`: the compatibility no-ops. -/
def noOpMods : List Char := ['A', 'U', 'D', 'S', 'J']

/-- Every modifier character the parser accepts. -/
def validModChars : List Char := ['i', 'm', 's', 'u', 'x', 'A', 'U', 'D', 'S', 'J']

/-- The modifier loop of `parsePattern` (lines 91-104): accumulates the
native flag characters (the caller starts the accumulator at `"g"`,
line 88) and the `extended` marker; `e` and any unrecognized modifier
throw (modelled as `.error`; the messages are abridged). -/
def parseModsGo : List Char → List Char → Bool → Except String (List Char × Bool)
  | [], flags, ext => .ok (flags, ext)
  | m :: rest, flags, ext =>
    if m = 'i' then parseModsGo rest (flags ++ ['i']) ext
    else if m = 'm' then parseModsGo rest (flags ++ ['m']) ext
    else if m = 's' then parseModsGo rest (flags ++ ['s']) ext
    else if m = 'u' then parseModsGo rest (flags ++ ['u']) ext
    else if m = 'x' then parseModsGo rest flags true
    else if m ∈ noOpMods then parseModsGo rest flags ext
    else if m = 'e' then .error "Modifier e is not supported for security reasons"
    else .error "Unsupported modifier"

/-- The whole modifier pass: loop started with `flags = "g"`,
`extended = false` (lines 88-104). -/
def parseMods (mods : List Char) : Except String (List Char × Bool) :=
  parseModsGo mods ['g'] false

/-- `[...new Set(flags.split(""))].join("")` (line 108): keep the first
occurrence of each character, in order. -/
def dedupFirst : List Char → List Char → List Char
  | [], _ => []
  | c :: cs, seen => if c ∈ seen then dedupFirst cs seen else c :: dedupFirst cs (c :: seen)

/-- Index of the last occurrence of `d` in `l`, if any
(`pat.lastIndexOf(delim)` always finds the delimiter at index 0). -/
def lastIndexOfAux (l : List Char) (d : Char) : Option Nat :=
  match l with
  | [] => none
  | c :: cs =>
    match lastIndexOfAux cs d with
    | some i => some (i + 1)
    | none => if c = d then some 0 else none

/-- `l.lastIndexOf(d)` of JS: `-1` when absent. -/
def jsLastIndexOf (l : List Char) (d : Char) : Int :=
  match lastIndexOfAux l d with
  | some i => (i : Int)
  | none => -1

/-- The record `{source, flags, modifiers}` returned by `parsePattern`. -/
structure ParsedPattern where
  source : String
  flags : String
  modifiers : String
deriving DecidableEq, Repr

/-- `parsePattern(pat)` (lines 79-110): delimiter split, modifier loop,
optional extended preprocessing, flag dedup.  `Except.error` models the
`throw`s, which `compile` catches. -/
def parsePattern (pat : String) : Except String ParsedPattern :=
  let l := pat.toList
  if l.length < 2 then .error "Empty regex"
  else
    match l with
    | [] => .error "Empty regex"
    | delim :: _ =>
      let last := jsLastIndexOf l delim
      if last ≤ 0 then .error "Invalid delimiter"
      else
        let body := (l.drop 1).take (last.toNat - 1)
        let mods := l.drop (last.toNat + 1)
        match parseMods mods with
        | .error e => .error e
        | .ok (flags, extended) =>
          let src := if extended then stripExtendedGo body false false else body
          .ok ⟨⟨src⟩, ⟨dedupFirst flags []⟩, ⟨mods⟩⟩

theorem mem_dedupFirst :
    ∀ (l seen : List Char) (c : Char), c ∈ dedupFirst l seen ↔ (c ∈ l ∧ c ∉ seen) := by
  intro l
  induction l with
  | nil => intro seen c; simp [dedupFirst]
  | cons d ds ih =>
    intro seen c
    by_cases h : d ∈ seen <;> by_cases hcd : c = d
    · subst hcd; simp [dedupFirst, h, ih]
    · simp [dedupFirst, h, ih, hcd]
    · subst hcd; simp [dedupFirst, h, ih]
    · simp [dedupFirst, h, ih, hcd]

theorem nodup_dedupFirst : ∀ (l seen : List Char), (dedupFirst l seen).Nodup := by
  intro l
  induction l with
  | nil => intro seen; simp [dedupFirst]
  | cons d ds ih =>
    intro seen
    by_cases h : d ∈ seen
    · simpa [dedupFirst, h] using ih seen
    · simp only [dedupFirst, if_neg h]
      refine List.nodup_cons.mpr ⟨?_, ih (d :: seen)⟩
      intro hmem
      exact ((mem_dedupFirst ds (d :: seen) d).mp hmem).2 (List.mem_cons_self d seen)

theorem parseModsGo_ok_iff :
    ∀ (mods acc : List Char) (ext : Bool),
      (∃ fe, parseModsGo mods acc ext = .ok fe) ↔ ∀ c ∈ mods, c ∈ validModChars := by
  intro mods
  induction mods with
  | nil => intro acc ext; simp [parseModsGo]
  | cons m rest ih =>
    intro acc ext
    by_cases h1 : m = 'i'
    · subst h1; simp [parseModsGo, ih, validModChars]
    · by_cases h2 : m = 'm'
      · subst h2; simp [parseModsGo, ih, validModChars]
      · by_cases h3 : m = 's'
        · subst h3; simp [parseModsGo, ih, validModChars]
        · by_cases h4 : m = 'u'
          · subst h4; simp [parseModsGo, ih, validModChars]
          · by_cases h5 : m = 'x'
            · subst h5; simp [parseModsGo, ih, validModChars]
            · by_cases h6 : m ∈ noOpMods
              · have hv : m ∈ validModChars := by
                  simp only [noOpMods, List.mem_cons, List.not_mem_nil, or_false] at h6
                  rcases h6 with rfl | rfl | rfl | rfl | rfl <;> decide
                simp [parseModsGo, h1, h2, h3, h4, h5, h6, ih, hv]
              · have hv : m ∉ validModChars := by
                  intro hm
                  simp only [validModChars, List.mem_cons, List.not_mem_nil, or_false] at hm
                  rcases hm with rfl | rfl | rfl | rfl | rfl | rfl | rfl | rfl | rfl | rfl
                  exacts [h1 rfl, h2 rfl, h3 rfl, h4 rfl, h5 rfl, h6 (by decide),
                    h6 (by decide), h6 (by decide), h6 (by decide), h6 (by decide)]
                simp only [parseModsGo, if_neg h1, if_neg h2, if_neg h3, if_neg h4,
                  if_neg h5, if_neg h6]
                constructor
                · rintro ⟨fe, hfe⟩
                  by_cases h7 : m = 'e' <;> simp [h7] at hfe
                · intro hall
                  exact absurd (hall m (List.mem_cons_self m rest)) hv

/-- Both sides of the flag-membership invariant when a native-flag
modifier `m` is appended to the accumulator. -/
theorem flag_mem_append (m c : Char) (acc rest : List Char)
    (hm : m ∈ nativeFlagMods) :
    (c ∈ acc ++ [m] ∨ (c ∈ rest ∧ c ∈ nativeFlagMods)) ↔
      (c ∈ acc ∨ (c ∈ m :: rest ∧ c ∈ nativeFlagMods)) := by
  by_cases hcm : c = m
  · subst hcm; simp [hm]
  · simp [List.mem_append, List.mem_cons, hcm]

/-- Both sides of the flag-membership invariant when a modifier `m`
outside the native-flag set is consumed without touching the flags. -/
theorem flag_mem_skip (m c : Char) (acc rest : List Char)
    (hm : m ∉ nativeFlagMods) :
    (c ∈ acc ∨ (c ∈ rest ∧ c ∈ nativeFlagMods)) ↔
      (c ∈ acc ∨ (c ∈ m :: rest ∧ c ∈ nativeFlagMods)) := by
  by_cases hcm : c = m
  · subst hcm; simp [hm]
  · simp [List.mem_cons, hcm]

theorem parseModsGo_ok_char :
    ∀ (mods acc : List Char) (ext : Bool) (flags : List Char) (e2 : Bool),
      parseModsGo mods acc ext = .ok (flags, e2) →
        (∀ c : Char, c ∈ flags ↔ (c ∈ acc ∨ (c ∈ mods ∧ c ∈ nativeFlagMods))) ∧
        (e2 = true ↔ (ext = true ∨ 'x' ∈ mods)) := by
  intro mods
  induction mods with
  | nil =>
    intro acc ext flags e2 h
    simp only [parseModsGo, Except.ok.injEq, Prod.mk.injEq] at h
    obtain ⟨rfl, rfl⟩ := h
    simp
  | cons m rest ih =>
    intro acc ext flags e2 h
    by_cases h1 : m = 'i'
    · subst h1
      rw [parseModsGo, if_pos rfl] at h
      obtain ⟨hmem, hext⟩ := ih _ _ _ _ h
      refine ⟨fun c => by rw [hmem c, flag_mem_append 'i' c acc rest (by decide)], ?_⟩
      rw [hext]
      simp +decide [List.mem_cons]
    · by_cases h2 : m = 'm'
      · subst h2
        rw [parseModsGo, if_neg (by decide), if_pos rfl] at h
        obtain ⟨hmem, hext⟩ := ih _ _ _ _ h
        refine ⟨fun c => by rw [hmem c, flag_mem_append 'm' c acc rest (by decide)], ?_⟩
        rw [hext]
        simp +decide [List.mem_cons]
      · by_cases h3 : m = 's'
        · subst h3
          rw [parseModsGo, if_neg (by decide), if_neg (by decide), if_pos rfl] at h
          obtain ⟨hmem, hext⟩ := ih _ _ _ _ h
          refine ⟨fun c => by rw [hmem c, flag_mem_append 's' c acc rest (by decide)], ?_⟩
          rw [hext]
          simp +decide [List.mem_cons]
        · by_cases h4 : m = 'u'
          · subst h4
            rw [parseModsGo, if_neg (by decide), if_neg (by decide), if_neg (by decide),
              if_pos rfl] at h
            obtain ⟨hmem, hext⟩ := ih _ _ _ _ h
            refine ⟨fun c => by rw [hmem c, flag_mem_append 'u' c acc rest (by decide)], ?_⟩
            rw [hext]
            simp +decide [List.mem_cons]
          · by_cases h5 : m = 'x'
            · subst h5
              rw [parseModsGo, if_neg (by decide), if_neg (by decide), if_neg (by decide),
                if_neg (by decide), if_pos rfl] at h
              obtain ⟨hmem, hext⟩ := ih _ _ _ _ h
              refine ⟨fun c => by rw [hmem c, flag_mem_skip 'x' c acc rest (by decide)], ?_⟩
              rw [hext]
              simp [List.mem_cons]
            · by_cases h6 : m ∈ noOpMods
              · have hmn : m ∉ nativeFlagMods := by
                  simp only [noOpMods, List.mem_cons, List.not_mem_nil, or_false] at h6
                  rcases h6 with rfl | rfl | rfl | rfl | rfl <;> decide
                rw [parseModsGo, if_neg h1, if_neg h2, if_neg h3, if_neg h4, if_neg h5,
                  if_pos h6] at h
                obtain ⟨hmem, hext⟩ := ih _ _ _ _ h
                refine ⟨fun c => by rw [hmem c, flag_mem_skip m c acc rest hmn], ?_⟩
                rw [hext]
                have hx5 : ¬ ('x' = m) := fun hh => h5 hh.symm
                simp [List.mem_cons, hx5]
              · exfalso
                rw [parseModsGo, if_neg h1, if_neg h2, if_neg h3, if_neg h4, if_neg h5,
                  if_neg h6] at h
                by_cases h7 : m = 'e' <;> simp [h7] at h

/-- C6: the modifier pass maps `i,m,s,u` to native flags, `x` only to the
extended marker (never into the flag string), accepts `A,U,D,S,J` with no
effect on flags or marker, rejects `e` and every other character as a
parse failure, and the deduplicated flag string has no duplicate
characters; moreover `parsePattern` emits exactly that deduplicated flag
string. -/
theorem parse_modifiers_spec :
    ∀ mods : List Char,
      ((∃ fe, parseMods mods = .ok fe) ↔ ∀ c ∈ mods, c ∈ validModChars) ∧
      ('e' ∈ mods → ∀ fe, parseMods mods ≠ .ok fe) ∧
      (∀ flags ext, parseMods mods = .ok (flags, ext) →
        (dedupFirst flags []).Nodup ∧
        'x' ∉ dedupFirst flags [] ∧
        'e' ∉ dedupFirst flags [] ∧
        (ext = true ↔ 'x' ∈ mods) ∧
        (∀ c : Char, c ∈ dedupFirst flags [] ↔
          (c = 'g' ∨ (c ∈ mods ∧ c ∈ nativeFlagMods)))) ∧
      (∀ pat p, parsePattern pat = .ok p → p.flags.toList.Nodup) := by
  intro mods
  refine ⟨parseModsGo_ok_iff mods ['g'] false, ?_, ?_, ?_⟩
  · intro he fe hok
    have hval := (parseModsGo_ok_iff mods ['g'] false).mp ⟨fe, hok⟩ 'e' he
    exact absurd hval (by decide)
  · intro flags ext hok
    obtain ⟨hmem, hext⟩ := parseModsGo_ok_char mods ['g'] false flags ext hok
    have hchar : ∀ c : Char, c ∈ dedupFirst flags [] ↔
        (c = 'g' ∨ (c ∈ mods ∧ c ∈ nativeFlagMods)) := by
      intro c
      rw [mem_dedupFirst, hmem c]
      simp
    refine ⟨nodup_dedupFirst flags [], ?_, ?_, ?_, hchar⟩
    · intro hx
      rcases (hchar 'x').mp hx with h | ⟨_, h⟩
      · exact absurd h (by decide)
      · exact absurd h (by decide)
    · intro hx
      rcases (hchar 'e').mp hx with h | ⟨_, h⟩
      · exact absurd h (by decide)
      · exact absurd h (by decide)
    · rw [hext]
      simp
  · intro pat p hok
    unfold parsePattern at hok
    dsimp only at hok
    split at hok
    · simp at hok
    · split at hok
      · simp at hok
      · split at hok
        · simp at hok
        · split at hok
          · simp at hok
          · cases hok
            exact nodup_dedupFirst _ []

theorem parse_modifiers_spec_witness :
    (dedupFirst ['g', 'i'] []).Nodup ∧ 'x' ∉ dedupFirst ['g', 'i'] [] ∧
      (true = true ↔ 'x' ∈ (['i', 'x', 'A'] : List Char)) := by
  have h := (parse_modifiers_spec ['i', 'x', 'A']).2.2.1 ['g', 'i'] true rfl
  exact ⟨h.1, h.2.1, h.2.2.2.1⟩

/-! ### compile and the Error State (lines 33-39, 112-122, 167-180)

`__pregLastError` / `__pregLastErrorMsg` form a module-global cell; it is
modelled by explicit state passing.  `new RegExp(source, flags)` is the
native engine: the parameter `nativeErr` reports `none` when construction
succeeds and `some msg` when it throws with message `msg`. -/

/-- The process-wide error cell `{__pregLastError, __pregLastErrorMsg}`. -/
structure PregState where
  code : Nat
  msg : String
deriving DecidableEq, Repr

/-- The initial cell contents (lines 33-34). -/
def initialPregState : PregState := ⟨PREG_NO_ERROR, "PREG_NO_ERROR"⟩

/-- `setPregError(code, msg)` (lines 36-39). -/
def setPregError (code : Nat) (msg : String) (_st : PregState) : PregState :=
  ⟨code, msg⟩

/-- A compiled native regex, identified by its source and flag strings. -/
structure CompiledRe where
  source : String
  flags : String
deriving DecidableEq, Repr

/-- `flags.replace("g", "")`: JS string-pattern replace removes only the
first occurrence. -/
def removeFirstG : List Char → List Char
  | [] => []
  | c :: cs => if c = 'g' then cs else c :: removeFirstG cs

/-- `compile(pat, single)` (lines 112-122): parse, optionally strip the
`g` flag for single-match use, construct the native regex.  Success
writes `NO_ERROR` to the cell and returns the regex; any failure (parse
throw or native throw, reported by the `nativeErr` oracle) writes
`INTERNAL_ERROR` plus the diagnostic message and returns the null
sentinel.  (The source sets `NO_ERROR` just before the `new RegExp` call
and overwrites it in the `catch`; only the final cell contents are
modelled.) -/
def compile (nativeErr : String → String → Option String) (pat : String)
    (single : Bool) (st : PregState) : Option CompiledRe × PregState :=
  match parsePattern pat with
  | .error e => (none, setPregError PREG_INTERNAL_ERROR e st)
  | .ok p =>
    let f : String := if single then ⟨removeFirstG p.flags.toList⟩ else p.flags
    match nativeErr p.source f with
    | some e => (none, setPregError PREG_INTERNAL_ERROR e st)
    | none => (some ⟨p.source, f⟩, setPregError PREG_NO_ERROR "PREG_NO_ERROR" st)

/-- `preg_last_error()` (lines 167-170): a pure read of the cell. -/
def preg_last_error (st : PregState) : Nat × PregState := (st.code, st)

/-- `preg_last_error_msg()` (lines 177-180): a pure read of the cell. -/
def preg_last_error_msg (st : PregState) : String × PregState := (st.msg, st)

/-- C8: every compile attempt leaves the error cell holding exactly
`NO_ERROR` (on success, with the fixed message) or `INTERNAL_ERROR` with
the diagnostic message (on failure) — no other code is ever produced, for
any prior cell contents and any native-engine outcome; and the two reads
return components of the cell without mutating it, so repeated reads
without an intervening compile return identical values. -/
theorem error_state_two_valued :
    ∀ (nativeErr : String → String → Option String) (pat : String) (single : Bool)
      (st : PregState),
      ((compile nativeErr pat single st).2.code = PREG_NO_ERROR ∨
        (compile nativeErr pat single st).2.code = PREG_INTERNAL_ERROR) ∧
      ((compile nativeErr pat single st).1.isSome = true →
        (compile nativeErr pat single st).2 = ⟨PREG_NO_ERROR, "PREG_NO_ERROR"⟩) ∧
      ((compile nativeErr pat single st).1 = none →
        (compile nativeErr pat single st).2.code = PREG_INTERNAL_ERROR ∧
        ((∃ e, parsePattern pat = .error e ∧ (compile nativeErr pat single st).2.msg = e) ∨
         (∃ p e, parsePattern pat = .ok p ∧
            nativeErr p.source (if single = true then ⟨removeFirstG p.flags.data⟩
              else p.flags) = some e ∧
            (compile nativeErr pat single st).2.msg = e))) ∧
      (∀ s : PregState, preg_last_error s = (s.code, s) ∧
        preg_last_error_msg s = (s.msg, s) ∧
        (preg_last_error (preg_last_error s).2).1 = (preg_last_error s).1 ∧
        (preg_last_error_msg (preg_last_error_msg s).2).1 = (preg_last_error_msg s).1) := by
  intro nativeErr pat single st
  have hreads : ∀ s : PregState, preg_last_error s = (s.code, s) ∧
      preg_last_error_msg s = (s.msg, s) ∧
      (preg_last_error (preg_last_error s).2).1 = (preg_last_error s).1 ∧
      (preg_last_error_msg (preg_last_error_msg s).2).1 = (preg_last_error_msg s).1 :=
    fun s => ⟨rfl, rfl, rfl, rfl⟩
  rcases hp : parsePattern pat with e | p
  · refine ⟨?_, ?_, ?_, hreads⟩ <;>
      simp [compile, hp, setPregError, PREG_NO_ERROR, PREG_INTERNAL_ERROR]
  · rcases hn : nativeErr p.source (if single = true then ⟨removeFirstG p.flags.data⟩
        else p.flags) with _ | e
    · refine ⟨?_, ?_, ?_, hreads⟩ <;>
        simp [compile, hp, hn, setPregError, PREG_NO_ERROR, PREG_INTERNAL_ERROR]
    · refine ⟨?_, ?_, ?_, hreads⟩ <;>
        simp [compile, hp, hn, setPregError, PREG_NO_ERROR, PREG_INTERNAL_ERROR]

/-- Closed instance of `error_state_two_valued`: compiling the literal
`"/ab/i"` with a native engine that accepts it succeeds and leaves the
cell at `NO_ERROR` with the fixed message. -/
theorem error_state_two_valued_witness :
    (compile (fun _ _ => none) "/ab/i" true ⟨PREG_INTERNAL_ERROR, "x"⟩).2 =
      ⟨PREG_NO_ERROR, "PREG_NO_ERROR"⟩ :=
  (error_state_two_valued (fun _ _ => none) "/ab/i" true ⟨PREG_INTERNAL_ERROR, "x"⟩).2.1
    (by decide)

/-! ### Result rows (lines 124-160) and preg_match (lines 198-228) -/

/-- A capture key of a result row: numeric index or group name. -/
inductive RKey where
  | num : Nat → RKey
  | name : String → RKey
deriving DecidableEq, Repr

/-- A value stored in a result row: a string or `null` (`none`),
optionally paired with a start offset (`PREG_OFFSET_CAPTURE`), or the JS
`undefined`. -/
inductive RVal where
  | plain : Option String → RVal
  | withOff : Option String → Int → RVal
  | undef : RVal
deriving DecidableEq, Repr

/-- A result row: ordered key-value pairs, numeric keys first in index
order, then named groups — exactly the `Object.keys` order of the JS
array-with-properties the source builds. -/
abbrev MRow := List (RKey × RVal)

/-- A native match (`RegExpExecArray`): match start, whole-match text,
numbered groups (`none` = group did not participate), named groups. -/
structure NativeMatch where
  index : Nat
  m0 : String
  groups : List (Option String)
  named : List (String × Option String)
deriving DecidableEq, Repr

/-- `withValues(match, unmatchedAsNull)` (lines 154-160): key `0` is the
whole match; each group is its text, or `null`/`""` per the flag. -/
def withValues (m : NativeMatch) (unmatchedAsNull : Bool) : MRow :=
  (RKey.num 0, RVal.plain (some m.m0)) ::
  (m.groups.enum.map fun ig =>
    (RKey.num (ig.1 + 1),
     RVal.plain (match ig.2 with
       | some s => some s
       | none => if unmatchedAsNull then none else some ""))) ++
  (m.named.map fun kv =>
    (RKey.name kv.1,
     RVal.plain (match kv.2 with
       | some s => some s
       | none => if unmatchedAsNull then none else some "")))

/-- Index of the first occurrence of `needle` in `l` (`none` = absent). -/
def firstOccurrence (needle : List Char) : List Char → Option Nat
  | [] => if needle = [] then some 0 else none
  | c :: cs =>
    if needle.isPrefixOf (c :: cs) then some 0
    else (firstOccurrence needle cs).map (· + 1)

/-- `hay.indexOf(needle, start)` of JS: first index at or after `start`,
else `-1`. -/
def jsIndexOfFrom (hay needle : List Char) (start : Nat) : Int :=
  match firstOccurrence needle (hay.drop start) with
  | some i => ((start + i : Nat) : Int)
  | none => -1

/-- The numbered-group loop of `withOffsets` (lines 129-140): scan the
whole-match text for each captured string with a forward-only cursor. -/
def withOffsetsNumGo (m0 : List Char) (baseIndex : Nat) (unmatchedAsNull : Bool) :
    List (Option String) → Nat → Nat → MRow
  | [], _, _ => []
  | g :: gs, i, cursor =>
    match g with
    | none =>
      (RKey.num i, RVal.withOff (if unmatchedAsNull then none else some "") (-1)) ::
        withOffsetsNumGo m0 baseIndex unmatchedAsNull gs (i + 1) cursor
    | some gstr =>
      (RKey.num i, RVal.withOff (some gstr)
        (if 0 ≤ jsIndexOfFrom m0 gstr.data cursor then
          (baseIndex : Int) + jsIndexOfFrom m0 gstr.data cursor
         else -1)) ::
        withOffsetsNumGo m0 baseIndex unmatchedAsNull gs (i + 1)
          (if 0 ≤ jsIndexOfFrom m0 gstr.data cursor then
            (jsIndexOfFrom m0 gstr.data cursor).toNat + gstr.data.length
           else cursor)

/-- The named-group loop of `withOffsets` (lines 142-150): scan from the
start of the whole match, no cursor. -/
def withOffsetsNamed (m0 : List Char) (baseIndex : Nat) (unmatchedAsNull : Bool)
    (named : List (String × Option String)) : MRow :=
  named.map fun kv =>
    match kv.2 with
    | none => (RKey.name kv.1, RVal.withOff (if unmatchedAsNull then none else some "") (-1))
    | some v =>
      (RKey.name kv.1, RVal.withOff (some v)
        (if 0 ≤ jsIndexOfFrom m0 v.data 0 then (baseIndex : Int) + jsIndexOfFrom m0 v.data 0
         else -1))

/-- `withOffsets(match, baseIndex, unmatchedAsNull)` (lines 124-152). -/
def withOffsets (m : NativeMatch) (baseIndex : Nat) (unmatchedAsNull : Bool) : MRow :=
  (RKey.num 0, RVal.withOff (some m.m0) (baseIndex : Int)) ::
  withOffsetsNumGo m.m0.data baseIndex unmatchedAsNull m.groups 1 0 ++
  withOffsetsNamed m.m0.data baseIndex unmatchedAsNull m.named

/-- Row construction selected by the flag bits (lines 214-215, 250-251):
`PREG_OFFSET_CAPTURE` is tested for truthiness, `PREG_UNMATCHED_AS_NULL`
by bit equality, as in the source. -/
def buildRow (flags : Nat) (m : NativeMatch) (baseIndex : Nat) : MRow :=
  if flags &&& PREG_OFFSET_CAPTURE ≠ 0 then
    withOffsets m baseIndex (decide (flags &&& PREG_UNMATCHED_AS_NULL = PREG_UNMATCHED_AS_NULL))
  else
    withValues m (decide (flags &&& PREG_UNMATCHED_AS_NULL = PREG_UNMATCHED_AS_NULL))

/-- `subject.slice(offset)` for a nonnegative offset. -/
def jsSliceFrom (s : String) (offset : Nat) : String := ⟨s.data.drop offset⟩

/-- The three-valued result of `preg_match`: the `false` compile-failure
sentinel, `0` (compiled, no match), `1` (match). -/
inductive MatchOneRet where
  | fls : MatchOneRet
  | zero : MatchOneRet
  | one : MatchOneRet
deriving DecidableEq, Repr

/-- `preg_match(pattern, subject, matchesOut, flags, offset)` (lines
198-228).  `exec` is the native `re.exec(subj)` for a regex compiled
without the `g` flag: the first match or `none`.  The caller's output
container is threaded explicitly: the middle component of the result is
the container after the call (the source mutates the supplied array or
object in place, replacing its contents with the new row). -/
def preg_match (nativeErr : String → String → Option String)
    (exec : CompiledRe → String → Option NativeMatch)
    (pattern subject : String) (mtc : Option MRow) (flags : Nat) (offset : Nat)
    (st : PregState) : MatchOneRet × Option MRow × PregState :=
  match compile nativeErr pattern true st with
  | (none, st2) => (.fls, mtc, st2)
  | (some re, st2) =>
    match exec re (if offset = 0 then subject else jsSliceFrom subject offset) with
    | none => (.zero, mtc, st2)
    | some m =>
      match mtc with
      | none => (.one, none, st2)
      | some _ => (.one, some (buildRow flags m (m.index + offset)), st2)

/-- C5: the three-valued protocol of `preg_match` — `false` when the
literal does not compile, `0` when it compiles but does not match the
subject from the given offset, `1` on a match with the Result Row written
into the caller's container when one was supplied; and the `0` no-match
result is a different value from the `false` sentinel. -/
theorem preg_match_protocol :
    ∀ (ne : String → String → Option String)
      (exec : CompiledRe → String → Option NativeMatch)
      (pattern subject : String) (mtc : Option MRow) (flags offset : Nat)
      (st : PregState),
      ((compile ne pattern true st).1 = none →
        (preg_match ne exec pattern subject mtc flags offset st).1 = .fls) ∧
      (∀ re, (compile ne pattern true st).1 = some re →
        (exec re (if offset = 0 then subject else jsSliceFrom subject offset) = none →
          (preg_match ne exec pattern subject mtc flags offset st).1 = .zero) ∧
        (∀ m, exec re (if offset = 0 then subject else jsSliceFrom subject offset) = some m →
          (preg_match ne exec pattern subject mtc flags offset st).1 = .one ∧
          (mtc.isSome = true →
            (preg_match ne exec pattern subject mtc flags offset st).2.1 =
              some (buildRow flags m (m.index + offset))))) ∧
      MatchOneRet.zero ≠ MatchOneRet.fls ∧ MatchOneRet.one ≠ MatchOneRet.fls := by
  intro ne exec pattern subject mtc flags offset st
  rcases hc : compile ne pattern true st with ⟨o, st2⟩
  rcases o with _ | re
  · refine ⟨fun _ => by simp [preg_match, hc], fun re hre => ?_, by decide, by decide⟩
    simp at hre
  · refine ⟨fun hn => by simp at hn, fun re2 hre2 => ?_, by decide, by decide⟩
    simp only [Option.some.injEq] at hre2
    subst hre2
    constructor
    · intro hx
      simp [preg_match, hc, hx]
    · intro m hm
      rcases mtc with _ | mm <;> simp [preg_match, hc, hm]

/-- Closed instance of `preg_match_protocol`: with a native engine that
compiles `/a/` and finds no match in `"b"`, the call returns `0`. -/
theorem preg_match_protocol_witness :
    (preg_match (fun _ _ => none) (fun _ _ => none) "/a/" "b" none 0 0
      initialPregState).1 = MatchOneRet.zero := by
  have h := preg_match_protocol (fun _ _ => none) (fun _ _ => none) "/a/" "b" none 0 0
    initialPregState
  exact (h.2.1 ⟨"a", ""⟩ (by decide)).1 rfl

/-- C10: when `preg_match` returns `0` or `false` (anything but `1`), a
caller-supplied mtc container keeps exactly its prior contents — the
write happens only on return value `1`. -/
theorem preg_match_container_frame :
    ∀ (ne : String → String → Option String)
      (exec : CompiledRe → String → Option NativeMatch)
      (pattern subject : String) (mtc : Option MRow) (flags offset : Nat)
      (st : PregState),
      (preg_match ne exec pattern subject mtc flags offset st).1 ≠ .one →
      (preg_match ne exec pattern subject mtc flags offset st).2.1 = mtc := by
  intro ne exec pattern subject mtc flags offset st h
  rcases hc : compile ne pattern true st with ⟨o, st2⟩
  rcases o with _ | re
  · simp [preg_match, hc]
  · rcases hm : exec re (if offset = 0 then subject else jsSliceFrom subject offset)
      with _ | m
    · simp [preg_match, hc, hm]
    · exfalso
      apply h
      rcases mtc with _ | mm <;> simp [preg_match, hc, hm]

/-- Closed instance of `preg_match_container_frame`: a no-match call
leaves a nonempty caller container untouched. -/
theorem preg_match_container_frame_witness :
    (preg_match (fun _ _ => none) (fun _ _ => none) "/a/" "b"
      (some [(RKey.num 0, RVal.plain (some "old"))]) 0 0 initialPregState).2.1 =
      some [(RKey.num 0, RVal.plain (some "old"))] :=
  preg_match_container_frame (fun _ _ => none) (fun _ _ => none) "/a/" "b"
    (some [(RKey.num 0, RVal.plain (some "old"))]) 0 0 initialPregState (by decide)

/-! ### preg_match_all and the Result Formatter (lines 234-285) -/

/-- `out[k]` for the pattern-order table (a JS object of columns). -/
def colLookup (k : RKey) : List (RKey × List RVal) → Option (List RVal)
  | [] => none
  | e :: es => if e.1 = k then some e.2 else colLookup k es

/-- `row[k]` for a result row. -/
def rowLookup (k : RKey) : MRow → Option RVal
  | [] => none
  | e :: es => if e.1 = k then some e.2 else rowLookup k es

/-- `if (!out[k]) out[k] = []; out[k].push(row[k])` (lines 266-269):
append `v` to the column of `k`, creating the column (at the end of the
key order) when absent. -/
def pushKey (a : List (RKey × List RVal)) (k : RKey) (v : RVal) : List (RKey × List RVal) :=
  if (colLookup k a).isSome then
    a.map (fun e => if e.1 = k then (e.1, e.2 ++ [v]) else e)
  else a ++ [(k, [v])]

/-- One row folded into the pattern-order table (lines 264-270). -/
def patternOrderAdd (acc : List (RKey × List RVal)) (row : MRow) : List (RKey × List RVal) :=
  row.foldl (fun a kv => pushKey a kv.1 kv.2) acc

/-- The `PREG_PATTERN_ORDER` arrangement (lines 262-273): transpose all
rows into columns, then `if (!out[0]) out[0] = all.map((r) => r[0])` —
the whole-match column is present even with zero occurrences. -/
def patternOrder (rows : List MRow) : List (RKey × List RVal) :=
  if (colLookup (RKey.num 0) (rows.foldl patternOrderAdd [])).isSome then
    rows.foldl patternOrderAdd []
  else
    rows.foldl patternOrderAdd [] ++
      [(RKey.num 0, rows.map (fun r => (rowLookup (RKey.num 0) r).getD RVal.undef))]

/-- The two output arrangements of `preg_match_all`. -/
inductive MatchAllOut where
  | rows : List MRow → MatchAllOut
  | cols : List (RKey × List RVal) → MatchAllOut
deriving DecidableEq, Repr

/-- `preg_match_all(pattern, subject, matchesOut, flags, offset)` (lines
234-285).  `execAll` is the native global-match loop: the sequence of
matches `re.exec` yields on the subject, including the source's
zero-length `lastIndex` bump.  The returned pair is the occurrence count
and the arranged output the source writes into the caller's container. -/
def preg_match_all (nativeErr : String → String → Option String)
    (execAll : CompiledRe → String → List NativeMatch)
    (pattern subject : String) (flags : Nat) (offset : Nat) (st : PregState) :
    Option (Nat × MatchAllOut) × PregState :=
  match compile nativeErr pattern false st with
  | (none, st2) => (none, st2)
  | (some re, st2) =>
    (some
      (((execAll re (if offset = 0 then subject else jsSliceFrom subject offset)).map
          (fun m => buildRow flags m (m.index + offset))).length,
        if flags &&& PREG_SET_ORDER = PREG_SET_ORDER then
          MatchAllOut.rows
            ((execAll re (if offset = 0 then subject else jsSliceFrom subject offset)).map
              (fun m => buildRow flags m (m.index + offset)))
        else
          MatchAllOut.cols (patternOrder
            ((execAll re (if offset = 0 then subject else jsSliceFrom subject offset)).map
              (fun m => buildRow flags m (m.index + offset))))), st2)

theorem colLookup_append (k : RKey) (a b : List (RKey × List RVal)) :
    colLookup k (a ++ b) =
      match colLookup k a with
      | some v => some v
      | none => colLookup k b := by
  induction a with
  | nil => simp [colLookup]
  | cons e es ih =>
    by_cases he : e.1 = k <;> simp [colLookup, he, ih]

theorem colLookup_map_bump (es : List (RKey × List RVal)) (k k2 : RKey) (v : RVal)
    (hne : k2 ≠ k) :
    colLookup k2 (es.map (fun e => if e.1 = k then (e.1, e.2 ++ [v]) else e)) =
      colLookup k2 es := by
  induction es with
  | nil => rfl
  | cons e es ih =>
    by_cases he : e.1 = k
    · have hk2 : ¬ k = k2 := fun hh => hne hh.symm
      simp [List.map_cons, colLookup, he, hk2, ih]
    · by_cases he2 : e.1 = k2 <;> simp [List.map_cons, colLookup, he, he2, hne, ih]

theorem colLookup_map_self (a : List (RKey × List RVal)) (k : RKey) (v : RVal)
    (l0 : List RVal) (hg : colLookup k a = some l0) :
    colLookup k (a.map (fun e => if e.1 = k then (e.1, e.2 ++ [v]) else e)) =
      some (l0 ++ [v]) := by
  induction a with
  | nil => simp [colLookup] at hg
  | cons e es ih =>
    by_cases he : e.1 = k
    · simp only [colLookup, if_pos he] at hg
      cases hg
      simp [colLookup, he]
    · simp only [colLookup, if_neg he] at hg
      simp [colLookup, he, ih hg]

theorem colLookup_pushKey_self (a : List (RKey × List RVal)) (k : RKey) (v : RVal) :
    colLookup k (pushKey a k v) = some (((colLookup k a).getD []) ++ [v]) := by
  rcases hg : colLookup k a with _ | l0
  · have hns : ¬ (colLookup k a).isSome = true := by rw [hg]; simp
    rw [pushKey, if_neg hns, colLookup_append, hg]
    simp [colLookup]
  · have hsome : (colLookup k a).isSome = true := by rw [hg]; rfl
    rw [pushKey, if_pos hsome, colLookup_map_self a k v l0 hg]
    rfl

theorem colLookup_pushKey_other (a : List (RKey × List RVal)) (k k2 : RKey) (v : RVal)
    (hne : k2 ≠ k) : colLookup k2 (pushKey a k v) = colLookup k2 a := by
  unfold pushKey
  split
  · exact colLookup_map_bump a k k2 v hne
  · rw [colLookup_append]
    rcases colLookup k2 a with _ | l
    · show colLookup k2 [(k, [v])] = none
      simp only [colLookup]
      rw [if_neg (fun hh => hne hh.symm)]
    · rfl

theorem colLookup_foldPush_skip (k : RKey) :
    ∀ (r : MRow) (a : List (RKey × List RVal)),
      (∀ kv ∈ r, kv.1 ≠ k) →
      colLookup k (r.foldl (fun a kv => pushKey a kv.1 kv.2) a) = colLookup k a := by
  intro r
  induction r with
  | nil => intro a _; rfl
  | cons kv rest ih =>
    intro a hr
    have h1 : kv.1 ≠ k := hr kv (List.mem_cons_self kv rest)
    have h2 : ∀ e ∈ rest, e.1 ≠ k := fun e he => hr e (List.mem_cons_of_mem kv he)
    simp only [List.foldl_cons]
    rw [ih _ h2, colLookup_pushKey_other _ _ _ _ (fun hh => h1 hh.symm)]

/-- Shape of every row the source builds: the whole-match entry with key
`0` first, and no other entry keyed `0`. -/
def RowShape (r : MRow) : Prop :=
  ∃ v rest, r = (RKey.num 0, v) :: rest ∧ ∀ kv ∈ rest, kv.1 ≠ RKey.num 0

theorem patternOrderAdd_key0 (acc : List (RKey × List RVal)) (r : MRow)
    (hr : RowShape r) :
    colLookup (RKey.num 0) (patternOrderAdd acc r) =
      some (((colLookup (RKey.num 0) acc).getD []) ++
        [(rowLookup (RKey.num 0) r).getD RVal.undef]) := by
  obtain ⟨v, rest, rfl, hrest⟩ := hr
  simp only [patternOrderAdd, List.foldl_cons]
  rw [colLookup_foldPush_skip _ rest _ hrest, colLookup_pushKey_self]
  simp [rowLookup]

theorem foldl_patternOrderAdd_key0 :
    ∀ (rows : List MRow) (acc : List (RKey × List RVal)),
      (∀ r ∈ rows, RowShape r) →
      colLookup (RKey.num 0) (rows.foldl patternOrderAdd acc) =
        (if rows.isEmpty then colLookup (RKey.num 0) acc
         else some (((colLookup (RKey.num 0) acc).getD []) ++
           rows.map (fun r => (rowLookup (RKey.num 0) r).getD RVal.undef))) := by
  intro rows
  induction rows with
  | nil => intro acc _; simp
  | cons r rows ih =>
    intro acc hall
    have hr : RowShape r := hall r (List.mem_cons_self r rows)
    have hrest : ∀ x ∈ rows, RowShape x := fun x hx => hall x (List.mem_cons_of_mem r hx)
    simp only [List.foldl_cons]
    rw [ih _ hrest]
    rcases rows with _ | ⟨r2, rows2⟩
    · simp [patternOrderAdd_key0 acc r hr]
    · simp [patternOrderAdd_key0 acc r hr]

/-- The pattern-order table always has the whole-match column `0`, with
one entry per occurrence. -/
theorem patternOrder_key0 (rows : List MRow) (hall : ∀ r ∈ rows, RowShape r) :
    ∃ l, colLookup (RKey.num 0) (patternOrder rows) = some l ∧ l.length = rows.length := by
  rcases rows with _ | ⟨r, rows2⟩
  · refine ⟨[], ?_, rfl⟩
    simp [patternOrder, colLookup]
  · have hfold := foldl_patternOrderAdd_key0 (r :: rows2) [] hall
    rw [if_neg (by simp : ¬ ((r :: rows2).isEmpty = true))] at hfold
    have hfold2 : colLookup (RKey.num 0) (List.foldl patternOrderAdd [] (r :: rows2)) =
        some ((rowLookup (RKey.num 0) r).getD RVal.undef ::
          rows2.map (fun x => (rowLookup (RKey.num 0) x).getD RVal.undef)) := by
      rw [hfold]
      simp [colLookup]
    have hsome : (colLookup (RKey.num 0) (List.foldl patternOrderAdd [] (r :: rows2))).isSome
        = true := by
      rw [hfold2]; rfl
    refine ⟨(rowLookup (RKey.num 0) r).getD RVal.undef ::
      rows2.map (fun x => (rowLookup (RKey.num 0) x).getD RVal.undef), ?_, by simp⟩
    rw [patternOrder, if_pos hsome, hfold2]

theorem withOffsetsNumGo_keys (m0 : List Char) (b : Nat) (uan : Bool) :
    ∀ (gs : List (Option String)) (i cursor : Nat) (kv : RKey × RVal),
      kv ∈ withOffsetsNumGo m0 b uan gs i cursor → ∃ j, i ≤ j ∧ kv.1 = RKey.num j := by
  intro gs
  induction gs with
  | nil => intro i cursor kv h; simp [withOffsetsNumGo] at h
  | cons g gs ih =>
    intro i cursor kv h
    rcases g with _ | gstr <;>
      simp only [withOffsetsNumGo, List.mem_cons] at h <;>
      rcases h with rfl | h
    · exact ⟨i, le_refl i, rfl⟩
    · obtain ⟨j, hij, hkv⟩ := ih (i + 1) cursor kv h
      exact ⟨j, by omega, hkv⟩
    · exact ⟨i, le_refl i, rfl⟩
    · obtain ⟨j, hij, hkv⟩ := ih (i + 1) _ kv h
      exact ⟨j, by omega, hkv⟩

theorem withOffsetsNamed_keys (m0 : List Char) (b : Nat) (uan : Bool) :
    ∀ (named : List (String × Option String)) (kv : RKey × RVal),
      kv ∈ withOffsetsNamed m0 b uan named → ∃ s, kv.1 = RKey.name s := by
  intro named
  induction named with
  | nil => intro kv h; simp [withOffsetsNamed] at h
  | cons p ps ih =>
    intro kv h
    obtain ⟨k1, v1⟩ := p
    rcases v1 with _ | v <;>
      simp only [withOffsetsNamed, List.map_cons, List.mem_cons] at h <;>
      rcases h with rfl | h
    · exact ⟨k1, rfl⟩
    · exact ih kv (by simpa [withOffsetsNamed] using h)
    · exact ⟨k1, rfl⟩
    · exact ih kv (by simpa [withOffsetsNamed] using h)

theorem buildRow_shape (flags : Nat) (m : NativeMatch) (b : Nat) :
    RowShape (buildRow flags m b) := by
  unfold buildRow
  split
  · refine ⟨_, _, rfl, ?_⟩
    intro kv hkv
    rcases List.mem_append.mp hkv with h | h
    · obtain ⟨j, hj, hkv1⟩ := withOffsetsNumGo_keys m.m0.data b _ m.groups 1 0 kv h
      rw [hkv1]
      intro hc
      cases hc
      omega
    · obtain ⟨s, hs⟩ := withOffsetsNamed_keys m.m0.data b _ m.named kv h
      rw [hs]
      simp
  · refine ⟨_, _, rfl, ?_⟩
    intro kv hkv
    rcases List.mem_append.mp hkv with h | h
    · obtain ⟨x, _, hx⟩ := List.mem_map.mp h
      rw [← hx]
      simp
    · obtain ⟨x, _, hx⟩ := List.mem_map.mp h
      rw [← hx]
      simp

/-- Flag words used by `preg_match_all` callers: an order constant plus
the optional offset-capture and unmatched-as-null bits. -/
def mkAllFlags (order : Nat) (oc uan : Bool) : Nat :=
  order + (if oc then PREG_OFFSET_CAPTURE else 0) + (if uan then PREG_UNMATCHED_AS_NULL else 0)

/-- C9: for any literal that compiles and any subject (both calls sharing
the native engine), the count `preg_match_all` returns under `SET_ORDER`
equals the length of the capture-`0` column of the `PATTERN_ORDER` output
for the same inputs, and that column is present even with zero
occurrences. -/
theorem match_all_set_vs_pattern_order :
    ∀ (ne : String → String → Option String)
      (ea : CompiledRe → String → List NativeMatch)
      (pattern subject : String) (oc uan : Bool) (offset : Nat) (st : PregState)
      (c : Nat) (o1 : MatchAllOut) (c2 : Nat) (o2 : MatchAllOut),
      (preg_match_all ne ea pattern subject (mkAllFlags PREG_SET_ORDER oc uan)
        offset st).1 = some (c, o1) →
      (preg_match_all ne ea pattern subject (mkAllFlags PREG_PATTERN_ORDER oc uan)
        offset st).1 = some (c2, o2) →
      c2 = c ∧ ∃ cols l, o2 = MatchAllOut.cols cols ∧
        colLookup (RKey.num 0) cols = some l ∧ l.length = c := by
  intro ne ea pattern subject oc uan offset st c o1 c2 o2 h1 h2
  rcases hc : compile ne pattern false st with ⟨o, st2⟩
  rcases o with _ | re
  · rw [preg_match_all, hc] at h1
    simp at h1
  · have hb2 : mkAllFlags PREG_SET_ORDER oc uan &&& PREG_SET_ORDER = PREG_SET_ORDER := by
      cases oc <;> cases uan <;> decide
    have hb1 : ¬ (mkAllFlags PREG_PATTERN_ORDER oc uan &&& PREG_SET_ORDER = PREG_SET_ORDER) := by
      cases oc <;> cases uan <;> decide
    rw [preg_match_all, hc] at h1 h2
    simp only [Option.some.injEq, Prod.mk.injEq, if_pos hb2, if_neg hb1] at h1 h2
    obtain ⟨hc1, _⟩ := h1
    obtain ⟨hc2, ho2⟩ := h2
    constructor
    · rw [← hc1, ← hc2]
      simp
    · have hall : ∀ r ∈ (ea re (if offset = 0 then subject
          else jsSliceFrom subject offset)).map
            (fun m => buildRow (mkAllFlags PREG_PATTERN_ORDER oc uan) m (m.index + offset)),
          RowShape r := by
        intro r hr
        obtain ⟨m, _, rfl⟩ := List.mem_map.mp hr
        exact buildRow_shape _ m _
      obtain ⟨l, hl, hlen⟩ := patternOrder_key0 _ hall
      refine ⟨_, l, ho2.symm, hl, ?_⟩
      rw [hlen, ← hc1]
      simp

/-- Closed instance of `match_all_set_vs_pattern_order` with a native
engine reporting zero occurrences: the pattern-order output still has
column `0`, of length equal to the count `0`. -/
theorem match_all_set_vs_pattern_order_witness :
    (0 : Nat) = 0 ∧ ∃ cols l, MatchAllOut.cols [(RKey.num 0, [])] = MatchAllOut.cols cols ∧
      colLookup (RKey.num 0) cols = some l ∧ l.length = 0 :=
  match_all_set_vs_pattern_order (fun _ _ => none) (fun _ _ => []) "/a/" "" false false 0
    initialPregState 0 (MatchAllOut.rows []) 0 (MatchAllOut.cols [(RKey.num 0, [])])
    (by decide) (by decide)

/-! ### preg_replace (lines 291-335) -/

/-- A global-replace decomposition of a subject by the native engine:
`parts` lists the (gap before match, matched text) pairs left to right,
`tail` is the text after the last match; the subject is their
concatenation.  This is how `String.prototype.replace` with a global
regex consumes its input. -/
structure SplitDecomp where
  parts : List (String × String)
  tail : String
deriving DecidableEq, Repr

/-- The replacement callback of `preg_replace` (lines 314-326) run over
the matched occurrences in order: with `limit >= 0` the callback
substitutes only while `localCount < limit` (`if (localCount >= limit)
return args[0]` — occurrences beyond the limit are replaced by
themselves, i.e. pass through unchanged); with a negative limit it always
substitutes.  Returns the assembled output before the tail and the final
`localCount`. -/
def jsReplaceFold (limit : Int) (r : String) : List (String × String) → Nat → String × Nat
  | [], cnt => ("", cnt)
  | pm :: rest, cnt =>
    if 0 ≤ limit then
      if limit ≤ (cnt : Int) then
        (pm.1 ++ pm.2 ++ (jsReplaceFold limit r rest cnt).1,
          (jsReplaceFold limit r rest cnt).2)
      else
        (pm.1 ++ r ++ (jsReplaceFold limit r rest (cnt + 1)).1,
          (jsReplaceFold limit r rest (cnt + 1)).2)
    else
      (pm.1 ++ r ++ (jsReplaceFold limit r rest (cnt + 1)).1,
        (jsReplaceFold limit r rest (cnt + 1)).2)

/-- `out.replace(re, cb)` for a global regex whose match sequence
decomposes `out` as `d`: per-occurrence callback results plus the
unmatched tail.  `localCount` starts at `0` for each pattern. -/
def jsGlobalReplace (limit : Int) (r : String) (d : SplitDecomp) : String × Nat :=
  ((jsReplaceFold limit r d.parts 0).1 ++ d.tail, (jsReplaceFold limit r d.parts 0).2)

/-- The pattern loop of `replaceOne` (lines 303-330): for pattern `i` the
replacement is `replacements[i] ?? replacements[0] ?? ""`; a compile
failure aborts with the false sentinel (`none`); `total` accumulates the
per-pattern `localCount`s.  `gdecomp` is the native engine: the global
match decomposition of a subject for a compiled regex. -/
def replaceOneGo (nativeErr : String → String → Option String)
    (gdecomp : CompiledRe → String → SplitDecomp)
    (replacements : List String) (limit : Int) :
    List String → Nat → String → Nat → PregState → Option String × Nat × PregState
  | [], _, out, total, st => (some out, total, st)
  | p :: ps, i, out, total, st =>
    match compile nativeErr p false st with
    | (none, st2) => (none, total, st2)
    | (some re, st2) =>
      replaceOneGo nativeErr gdecomp replacements limit ps (i + 1)
        (jsGlobalReplace limit (replacements.getD i (replacements.getD 0 "")) (gdecomp re out)).1
        (total + (jsGlobalReplace limit (replacements.getD i (replacements.getD 0 ""))
          (gdecomp re out)).2)
        st2

/-- The subject argument: a single string or a list of strings. -/
inductive Subjects where
  | one : String → Subjects
  | many : List String → Subjects
deriving DecidableEq, Repr

/-- The value `preg_replace` returns: the bare `false` sentinel, a string
result, or an array whose elements are strings or (`none`) the false
value `replaceOne` produced for that element. -/
inductive ReplaceOut where
  | fls : ReplaceOut
  | str : String → ReplaceOut
  | arr : List (Option String) → ReplaceOut
deriving DecidableEq, Repr

/-- `subject.map((s) => replaceOne(String(s)))` (line 332) for an array
subject, threading the shared `total` counter and the error cell left to
right. -/
def mapReplace (nativeErr : String → String → Option String)
    (gdecomp : CompiledRe → String → SplitDecomp)
    (patterns replacements : List String) (limit : Int) :
    List String → Nat → PregState → List (Option String) × Nat × PregState
  | [], total, st => ([], total, st)
  | s :: ss, total, st =>
    match replaceOneGo nativeErr gdecomp replacements limit patterns 0 s total st with
    | (res, total2, st2) =>
      match mapReplace nativeErr gdecomp patterns replacements limit ss total2 st2 with
      | (ress, total3, st3) => (res :: ress, total3, st3)

/-- `preg_replace(pattern, replacement, subject, limit, countObj)` (lines
291-335).  Single-string pattern/replacement arguments correspond to
one-element lists (the source wraps them, lines 299-300); the subject
keeps its string-vs-array shape because the return shape differs.  The
middle component of the result is the aggregate substitution count the
source writes into `countObj.count`. -/
def preg_replace (nativeErr : String → String → Option String)
    (gdecomp : CompiledRe → String → SplitDecomp)
    (patterns replacements : List String) (subject : Subjects) (limit : Int)
    (st : PregState) : ReplaceOut × Nat × PregState :=
  match subject with
  | .one s =>
    match replaceOneGo nativeErr gdecomp replacements limit patterns 0 s 0 st with
    | (none, total, st2) => (.fls, total, st2)
    | (some out, total, st2) => (.str out, total, st2)
  | .many ss =>
    match mapReplace nativeErr gdecomp patterns replacements limit ss 0 st with
    | (ress, total, st2) => (.arr ress, total, st2)

theorem compile_fst_state_indep (ne : String → String → Option String) (p : String)
    (single : Bool) (st st2 : PregState) :
    (compile ne p single st).1 = (compile ne p single st2).1 := by
  unfold compile
  rcases parsePattern p with e | pp
  · rfl
  · rcases ne pp.source (if single = true then ⟨removeFirstG pp.flags.data⟩ else pp.flags)
      with _ | e <;> rfl

theorem replaceOneGo_fail (ne : String → String → Option String)
    (gdecomp : CompiledRe → String → SplitDecomp)
    (replacements : List String) (limit : Int) :
    ∀ (ps : List String) (i : Nat) (out : String) (total : Nat) (st : PregState),
      (∃ p ∈ ps, (compile ne p false initialPregState).1 = none) →
      (replaceOneGo ne gdecomp replacements limit ps i out total st).1 = none := by
  intro ps
  induction ps with
  | nil => intro i out total st h; simp at h
  | cons p ps ih =>
    intro i out total st h
    rcases hc : compile ne p false st with ⟨o, st2⟩
    rcases o with _ | re
    · simp [replaceOneGo, hc]
    · have hp : ¬ (compile ne p false initialPregState).1 = none := by
        rw [compile_fst_state_indep ne p false initialPregState st, hc]
        simp
      obtain ⟨q, hq, hqf⟩ := h
      rcases List.mem_cons.mp hq with rfl | hq2
      · exact absurd hqf hp
      · simp only [replaceOneGo, hc]
        exact ih _ _ _ _ ⟨q, hq2, hqf⟩

/-- C3 counterexample: with an array subject and a pattern list whose
pattern fails to compile (`"//e"`: the rejected `e` modifier), the call
returns an array containing the per-element false value — not the bare
`false` sentinel for the whole call that the claim requires. -/
theorem preg_replace_array_fail_not_false :
    (preg_replace (fun _ _ => none) (fun _ s => ⟨[], s⟩) ["//e"] ["x"]
      (.many ["a"]) (-1) initialPregState).1 = ReplaceOut.arr [none] ∧
    ReplaceOut.arr [none] ≠ ReplaceOut.fls := by
  exact ⟨by decide, by decide⟩

/-- C3 (amended): a compile failure anywhere in the pattern list yields
no substituted text: for a single-string subject the call aborts with the
bare `false` sentinel, but for a list of subjects it instead returns a
list holding the false value in place of every element. -/
theorem preg_replace_fail_fast_amended :
    ∀ (ne : String → String → Option String) (gd : CompiledRe → String → SplitDecomp)
      (patterns replacements : List String) (limit : Int) (st : PregState),
      (∃ p ∈ patterns, (compile ne p false initialPregState).1 = none) →
      (∀ s, (preg_replace ne gd patterns replacements (.one s) limit st).1 =
        ReplaceOut.fls) ∧
      (∀ ss, (preg_replace ne gd patterns replacements (.many ss) limit st).1 =
        ReplaceOut.arr (ss.map (fun _ => none))) := by
  intro ne gd patterns replacements limit st h
  constructor
  · intro s
    have hf := replaceOneGo_fail ne gd replacements limit patterns 0 s 0 st h
    rcases hr : replaceOneGo ne gd replacements limit patterns 0 s 0 st with ⟨o, total, st2⟩
    rw [hr] at hf
    simp only at hf
    subst hf
    simp [preg_replace, hr]
  · intro ss
    suffices hmain : ∀ (ss : List String) (total : Nat) (st3 : PregState),
        (mapReplace ne gd patterns replacements limit ss total st3).1 =
          ss.map (fun _ => none) by
      rcases hm : mapReplace ne gd patterns replacements limit ss 0 st with ⟨ress, total, st2⟩
      have := hmain ss 0 st
      rw [hm] at this
      simp only at this
      subst this
      simp [preg_replace, hm]
    intro ss2
    induction ss2 with
    | nil => intro total st3; rfl
    | cons s ss2 ih =>
      intro total st3
      have hf := replaceOneGo_fail ne gd replacements limit patterns 0 s total st3 h
      rcases hr : replaceOneGo ne gd replacements limit patterns 0 s total st3
        with ⟨o, total2, st4⟩
      rw [hr] at hf
      simp only at hf
      subst hf
      rcases hm2 : mapReplace ne gd patterns replacements limit ss2 total2 st4
        with ⟨ress2, total3, st5⟩
      have := ih total2 st4
      rw [hm2] at this
      simp only at this
      subst this
      simp [mapReplace, hr, hm2]

/-- Closed instance of `preg_replace_fail_fast_amended`: the rejected
pattern `"//e"` against the subjects `["a", "b"]` yields the false value
for both elements. -/
theorem preg_replace_fail_fast_amended_witness :
    (preg_replace (fun _ _ => none) (fun _ s => ⟨[], s⟩) ["//e"] ["y"]
      (.many ["a", "b"]) 3 initialPregState).1 = ReplaceOut.arr [none, none] := by
  have h := (preg_replace_fail_fast_amended (fun _ _ => none) (fun _ s => ⟨[], s⟩)
    ["//e"] ["y"] 3 initialPregState ⟨"//e", by decide, by decide⟩).2 ["a", "b"]
  simpa using h

/-! ### The limited-substitution law (C4) and the literal engine -/

/-- Occurrence-indexed description of limited substitution: occurrence
`i` (0-based) is substituted exactly when `i < limit`; later occurrences
keep their matched text. -/
def substFirstN (limit : Int) (r : String) : List (String × String) → String
  | [] => ""
  | pm :: rest => pm.1 ++ (if 0 < limit then r else pm.2) ++ substFirstN (limit - 1) r rest

/-- Unlimited substitution: every occurrence replaced. -/
def substAll (r : String) : List (String × String) → String
  | [] => ""
  | pm :: rest => pm.1 ++ r ++ substAll r rest

/-- Concatenation of a list of strings. -/
def concatPieces : List String → String
  | [] => ""
  | s :: l => s ++ concatPieces l

theorem substFirstN_nonpos (r : String) :
    ∀ (parts : List (String × String)) (limit : Int), limit ≤ 0 →
      substFirstN limit r parts = concatPieces (parts.map (fun p => p.1 ++ p.2)) := by
  intro parts
  induction parts with
  | nil => intro limit _; rfl
  | cons pm rest ih =>
    intro limit hle
    rw [substFirstN, if_neg (by omega), ih (limit - 1) (by omega)]
    simp [concatPieces]

theorem jsReplaceFold_saturated (r : String) :
    ∀ (parts : List (String × String)) (limit : Int) (cnt : Nat),
      0 ≤ limit → limit ≤ (cnt : Int) →
      jsReplaceFold limit r parts cnt =
        (concatPieces (parts.map (fun p => p.1 ++ p.2)), cnt) := by
  intro parts
  induction parts with
  | nil => intro limit cnt _ _; rfl
  | cons pm rest ih =>
    intro limit cnt h0 hsat
    rw [jsReplaceFold, if_pos h0, if_pos hsat, ih limit cnt h0 hsat]
    simp [concatPieces]

theorem jsReplaceFold_nonneg (r : String) :
    ∀ (parts : List (String × String)) (limit : Int) (cnt : Nat),
      0 ≤ limit → (cnt : Int) ≤ limit →
      jsReplaceFold limit r parts cnt =
        (substFirstN (limit - cnt) r parts, min (cnt + parts.length) limit.toNat) := by
  intro parts
  induction parts with
  | nil =>
    intro limit cnt h0 hle
    simp only [jsReplaceFold, substFirstN, List.length_nil, Nat.add_zero, Prod.mk.injEq]
    exact ⟨trivial, by omega⟩
  | cons pm rest ih =>
    intro limit cnt h0 hle
    by_cases hsat : limit ≤ (cnt : Int)
    · rw [jsReplaceFold, if_pos h0, if_pos hsat,
        jsReplaceFold_saturated r rest limit cnt h0 hsat]
      rw [substFirstN, if_neg (by omega), substFirstN_nonpos r rest (limit - cnt - 1) (by omega)]
      simp only [List.length_cons, Prod.mk.injEq]
      exact ⟨by simp, by omega⟩
    · rw [jsReplaceFold, if_pos h0, if_neg hsat, ih limit (cnt + 1) h0 (by omega)]
      rw [substFirstN, if_pos (by omega)]
      have harg : limit - ((cnt + 1 : Nat) : Int) = limit - (cnt : Int) - 1 := by
        push_cast
        ring
      rw [harg]
      simp only [List.length_cons, Prod.mk.injEq]
      exact ⟨by simp, by omega⟩

theorem jsReplaceFold_neg (r : String) :
    ∀ (parts : List (String × String)) (limit : Int) (cnt : Nat), limit < 0 →
      jsReplaceFold limit r parts cnt = (substAll r parts, cnt + parts.length) := by
  intro parts
  induction parts with
  | nil => intro limit cnt _; rfl
  | cons pm rest ih =>
    intro limit cnt hneg
    rw [jsReplaceFold, if_neg (by omega), ih limit (cnt + 1) hneg, substAll]
    simp only [List.length_cons, Prod.mk.injEq]
    exact ⟨by simp, by omega⟩

theorem replaceOneGo_total_additive (ne : String → String → Option String)
    (gd : CompiledRe → String → SplitDecomp) (reps : List String) (limit : Int) :
    ∀ (ps : List String) (i : Nat) (out : String) (total : Nat) (st : PregState),
      (replaceOneGo ne gd reps limit ps i out total st).2.1 =
        total + (replaceOneGo ne gd reps limit ps i out 0 st).2.1 := by
  intro ps
  induction ps with
  | nil => intro i out total st; simp [replaceOneGo]
  | cons p ps ih =>
    intro i out total st
    rcases hc : compile ne p false st with ⟨o, st2⟩
    rcases o with _ | re
    · simp [replaceOneGo, hc]
    · simp only [replaceOneGo, hc]
      rw [ih _ _ (total + _) _, ih _ _ (0 + _) _]
      omega

/-- The native global-match decomposition for a literal (metacharacter
free) pattern source: non-overlapping left-to-right occurrences of the
source text, by plain substring search — e.g. `/a/g` on `"banana"`.
The fuel argument (one more than the subject length) bounds the scan. -/
def litDecompGo (pat : List Char) : Nat → List Char → List (String × String) × String
  | 0, l => ([], ⟨l⟩)
  | fuel + 1, l =>
    if pat.isEmpty then ([], ⟨l⟩)
    else
      match firstOccurrence pat l with
      | none => ([], ⟨l⟩)
      | some i =>
        ((⟨l.take i⟩, ⟨pat⟩) :: (litDecompGo pat fuel (l.drop (i + pat.length))).1,
          (litDecompGo pat fuel (l.drop (i + pat.length))).2)

/-- The literal-pattern instance of the global-decomposition oracle. -/
def litDecompOracle : CompiledRe → String → SplitDecomp :=
  fun re subj =>
    ⟨(litDecompGo re.source.data (subj.data.length + 1) subj.data).1,
      (litDecompGo re.source.data (subj.data.length + 1) subj.data).2⟩

/-- C4: with `limit = N >= 0` the callback substitutes exactly the first
`min N occurrences` matches of each pattern on each subject — occurrence
`i` is replaced iff `i < N`, later occurrences pass through unchanged and
the per-pattern count is `min occurrences N`; a negative limit (`-1`)
substitutes every occurrence; the aggregate counter adds each pattern's
and subject's local count onto the running total; and concretely
`preg_replace("/a/", "b", "banana", limit=2)` returns `"bbnbna"` with
count `2`. -/
theorem preg_replace_limit_spec :
    (∀ (limit : Int) (r : String) (parts : List (String × String)), 0 ≤ limit →
      jsReplaceFold limit r parts 0 =
        (substFirstN limit r parts, min parts.length limit.toNat)) ∧
    (∀ (limit : Int) (r : String) (parts : List (String × String)), limit < 0 →
      jsReplaceFold limit r parts 0 = (substAll r parts, parts.length)) ∧
    (∀ (ne : String → String → Option String) (gd : CompiledRe → String → SplitDecomp)
       (reps : List String) (limit : Int) (ps : List String) (i : Nat) (out : String)
       (total : Nat) (st : PregState),
      (replaceOneGo ne gd reps limit ps i out total st).2.1 =
        total + (replaceOneGo ne gd reps limit ps i out 0 st).2.1) ∧
    preg_replace (fun _ _ => none) litDecompOracle ["/a/"] ["b"] (.one "banana") 2
      initialPregState =
      (ReplaceOut.str "bbnbna", 2, ⟨PREG_NO_ERROR, "PREG_NO_ERROR"⟩) := by
  refine ⟨?_, ?_, replaceOneGo_total_additive, by decide⟩
  · intro limit r parts h0
    have h00 : limit - ((0 : Nat) : Int) = limit := by omega
    rw [jsReplaceFold_nonneg r parts limit 0 h0 (by omega), h00]
    simp
  · intro limit r parts hneg
    rw [jsReplaceFold_neg r parts limit 0 hneg]
    simp

/-- Closed instance of `preg_replace_limit_spec`: three occurrences,
limit `2` — the first two substituted, the third kept, local count `2`. -/
theorem preg_replace_limit_spec_witness :
    jsReplaceFold 2 "b" [("b", "a"), ("n", "a"), ("n", "a")] 0 =
      (substFirstN 2 "b" [("b", "a"), ("n", "a"), ("n", "a")],
        min [("b", "a"), ("n", "a"), ("n", "a")].length (2 : Int).toNat) :=
  preg_replace_limit_spec.1 2 "b" [("b", "a"), ("n", "a"), ("n", "a")] (by decide)

/-! ### preg_split (lines 341-354) -/

/-- `subject.split(re)` for a global regex whose match sequence
decomposes the subject as `d`: the gaps between consecutive matches plus
the tail.  (The modelled pattern sources carry no capture groups, which
JS `split` would additionally interleave.) -/
def jsSplit (d : SplitDecomp) : List String :=
  d.parts.map (fun p => p.1) ++ [d.tail]

/-- `preg_split(pattern, subject, limit, flags)` (lines 341-354): split
the whole subject, then `pieces.slice(0, limit)` when `limit > 0`.
`none` is the `false` compile-failure sentinel.  The `flags` argument is
type-checked but otherwise unused by the source. -/
def preg_split (nativeErr : String → String → Option String)
    (gdecomp : CompiledRe → String → SplitDecomp)
    (pattern subject : String) (limit : Int) (flags : Nat) (st : PregState) :
    Option (List String) × PregState :=
  match compile nativeErr pattern false st with
  | (none, st2) => (none, st2)
  | (some re, st2) =>
    if 0 < limit then (some ((jsSplit (gdecomp re subject)).take limit.toNat), st2)
    else (some (jsSplit (gdecomp re subject)), st2)

/-- C2: the claim says a positive limit keeps at most `limit` pieces with
the final kept piece absorbing all remaining unsplit content, so that the
pieces with the separators restored reassemble the subject.  The code
instead truncates with `pieces.slice(0, limit)`:
`preg_split("/,/", "a,b,c", 2)` yields `["a", "b"]`, silently dropping
`"c"` — the reassembly `"a" ++ "," ++ "b"` is not the subject, and the
result differs from the absorbing `["a", "b,c"]`. -/
theorem preg_split_limit_truncates :
    (preg_split (fun _ _ => none) litDecompOracle "/,/" "a,b,c" 2 0 initialPregState).1 =
      some ["a", "b"] ∧
    (["a", "b"] : List String) ≠ ["a", "b,c"] ∧
    "a" ++ "," ++ "b" ≠ "a,b,c" := by
  exact ⟨by decide, by decide, by decide⟩

end JPreg
